import Mathlib

/-!
Verification of the trace-graph subsystem of lalrpop
(`src/lalrpop/src/lr1/trace/trace_graph/mod.rs`).

The module builds a directed multigraph whose nodes are `TraceGraphNode`
values (LR0 items as endpoints, nonterminals as intermediate steps) and
whose edges are labelled with `SymbolSets` triples.  A `PathEnumerator`
then performs a resumable backward depth-first search along *incoming*
edges from a target item, assembling one symbol sequence (plus cursor
offset) per simple path found.

Embedding notes:

* `Symbol`, `NonterminalString` and `LR0Item` are external opaque value
  types (grammar collaborator); we parameterise over types `σ`, `ν`, `ι`
  with decidable equality.
* `SymbolSets` lives in `lr1/core.rs`, which is not part of the sources.
  Its shape and its `new` constructor are modelled from the spec.
  The Rust field `prefix` is called `pfx` here (`suffix` keeps its name).
* petgraph's `Graph` stores, per node, a push-front adjacency list, so
  `edges_directed` iterates edges in reverse insertion order.  We keep a
  single global edge list with the *newest edge first*; filtering it by
  endpoint reproduces petgraph's iteration order exactly.
* `util::Map` is a value-keyed map used only for `entry`-style insertion
  and lookup; an association list with the same lookup semantics models it.
* The Rust `Vec` stack pushes at the end; our `stack` list keeps the most
  recently pushed frame at the *head*, i.e. the list is the Vec reversed.
* Rust panics (map indexing on an absent key in `PathEnumerator::new`,
  the `assert!` in `advance`, `stack[1]` out of bounds) are modelled as
  `Option.none` results; fuel exhaustion of the search driver is also
  `none`.  `println!` calls are observability only and are dropped.
-/

set_option linter.unusedVariables false
set_option linter.unusedSectionVars false

namespace TraceGraphModel

variable {σ ν ι : Type} [DecidableEq σ] [DecidableEq ν] [DecidableEq ι]

/-- Modelled from the spec: `SymbolSets` (defined in `lr1/core.rs`, not in
the provided sources) is an edge label: a triple of a `prefix` symbol
sequence (field `pfx` here), an optional `cursor` symbol, and a `suffix`
symbol sequence. -/
structure SymbolSets (σ : Type) where
  pfx : List σ
  cursor : Option σ
  suffix : List σ
deriving DecidableEq, Repr

/-- Modelled from the spec: `SymbolSets::new()` is the empty label used for
the initial frame ("push one frame for it with an empty label"). -/
def SymbolSets.new : SymbolSets σ := ⟨[], none, []⟩

/-- The two node forms of the trace graph (Rust enum `TraceGraphNode`). -/
inductive TraceGraphNode (ν ι : Type) where
  | Nonterminal (n : ν)
  | Item (i : ι)
deriving DecidableEq, Repr

/-- One directed edge of the graph: source node index, target node index,
`SymbolSets` label (petgraph edge with its weight). -/
structure GraphEdge (σ : Type) where
  src : Nat
  tgt : Nat
  label : SymbolSets σ
deriving DecidableEq, Repr

/-- The trace graph (Rust struct `TraceGraph`): the petgraph node table,
the `indices` map from node values to node indices, and the edge list
(newest edge first, matching petgraph's per-node push-front adjacency). -/
structure TraceGraph (σ ν ι : Type) where
  nodes : List (TraceGraphNode ν ι)
  indices : List (TraceGraphNode ν ι × Nat)
  edges : List (GraphEdge σ)
deriving DecidableEq, Repr

/-- `TraceGraph::new()`. -/
def TraceGraph.new : TraceGraph σ ν ι := ⟨[], [], []⟩

/-- Lookup in the `indices` map (value-keyed). -/
def lookupIndex (g : TraceGraph σ ν ι) (n : TraceGraphNode ν ι) : Option Nat :=
  (g.indices.find? (fun p => p.1 = n)).map (fun p => p.2)

/-- `TraceGraph::add_node`: return the existing index of `n` if present,
otherwise append `n` to the node table and record its fresh index. -/
def TraceGraph.add_node (g : TraceGraph σ ν ι) (n : TraceGraphNode ν ι) :
    TraceGraph σ ν ι × Nat :=
  match lookupIndex g n with
  | some i => (g, i)
  | none =>
    let i := g.nodes.length
    ({ g with nodes := g.nodes ++ [n], indices := (n, i) :: g.indices }, i)

/-- `TraceGraph::add_edge`: resolve (or create) both endpoints, then scan
the existing outgoing edges of `from`; if one already targets `to` with an
identical label the call is a no-op, otherwise the edge is inserted. -/
def TraceGraph.add_edge (g : TraceGraph σ ν ι) (fromN toN : TraceGraphNode ν ι)
    (labels : SymbolSets σ) : TraceGraph σ ν ι :=
  let p1 := g.add_node fromN
  let p2 := p1.1.add_node toN
  let g2 := p2.1
  let f := p1.2
  let t := p2.2
  if g2.edges.any (fun e => e.src == f && e.tgt == t && e.label == labels) then g2
  else { g2 with edges := ⟨f, t, labels⟩ :: g2.edges }

/-- `PathEnumerator::incoming_edges`: the incoming edges of node `i`,
as (source index, label) pairs, in petgraph iteration order. -/
def incomingEdges (g : TraceGraph σ ν ι) (i : Nat) : List (Nat × SymbolSets σ) :=
  (g.edges.filter (fun e => e.tgt == i)).map (fun e => (e.src, e.label))

/-- Whether the graph has an edge from node value `a` to node value `b`
carrying label `l` (the dedup test of `add_edge`, phrased on values). -/
def hasEdge (g : TraceGraph σ ν ι) (a b : TraceGraphNode ν ι) (l : SymbolSets σ) : Bool :=
  match lookupIndex g a, lookupIndex g b with
  | some i, some j => g.edges.any (fun e => e.src == i && e.tgt == j && e.label == l)
  | _, _ => false

/-- The number of edges from node value `a` to node value `b`. -/
def edgeCount (g : TraceGraph σ ν ι) (a b : TraceGraphNode ν ι) : Nat :=
  match lookupIndex g a, lookupIndex g b with
  | some i, some j => (g.edges.filter (fun e => e.src == i && e.tgt == j)).length
  | _, _ => 0

/-- One search frame (Rust struct `EnumeratorState`): the node index, the
label of the edge that led here, and the not-yet-visited incoming edges of
the node (the state of the Rust `Edges` iterator). -/
structure EnumeratorState (σ : Type) where
  index : Nat
  symbol_sets : SymbolSets σ
  edges : List (Nat × SymbolSets σ)
deriving DecidableEq, Repr

/-- The path enumerator (Rust struct `PathEnumerator`, minus the graph
reference, which we pass to each operation).  `stack` keeps the most
recently pushed frame at the head (the Rust `Vec` reversed). -/
structure PathEnumerator (σ : Type) where
  stack : List (EnumeratorState σ)
  symbols : List σ
  cursor : Nat
deriving DecidableEq, Repr

/-- `PathEnumerator::found_trace`: rebuild `symbols` and `cursor` from the
stack.  The Rust code extends with `stack.iter().rev()` prefixes (our
stored order, since our list is the Vec reversed), records the cursor,
appends the optional cursor symbol of `stack[1]` (the second frame from
the bottom; Rust panics when the stack has fewer than two frames, which
never happens at a call site, see the C9 theorem), and finally the
suffixes in bottom-to-top order (our stored order reversed). -/
def found_trace (s : PathEnumerator σ) : PathEnumerator σ :=
  let syms0 := s.stack.flatMap (fun f => f.symbol_sets.pfx)
  let c := syms0.length
  let cursorPart : List σ :=
    match s.stack.reverse[1]? with
    | some f => f.symbol_sets.cursor.toList
    | none => []
  let syms := syms0 ++ cursorPart ++ s.stack.reverse.flatMap (fun f => f.symbol_sets.suffix)
  { s with symbols := syms, cursor := c }

/-- Result of one elementary step of the search (the body of one
`find_next_trace` iteration in the CPS chain
`find_next_trace` / `push_next_child_if_any` / `push_next_child`). -/
inductive StepResult (σ : Type) where
  | found (e : PathEnumerator σ)
  | exhausted (e : PathEnumerator σ)
  | deeper (e : PathEnumerator σ)
  | fault
deriving Repr

/-- One elementary step of the search.  Mirrors one unfolding of the Rust
CPS chain: take the next incoming edge of the top frame (mutating its
iterator); on `None` pop the frame and continue (`deeper`); on an `Item`
source push its frame and assemble the trace (`found`); on a `Nonterminal`
source, skip it if its index is already on the stack, otherwise push it,
and continue either way (`deeper`).  An empty stack means exhaustion;
`fault` models the Rust panic on an edge whose source index is not a node
(impossible for graphs built through `add_edge`). -/
def searchStep (g : TraceGraph σ ν ι) (s : PathEnumerator σ) : StepResult σ :=
  match s.stack with
  | [] => .exhausted s
  | top :: below =>
    match top.edges with
    | [] => .deeper { s with stack := below }
    | (src, ss) :: rest =>
      let s1 : PathEnumerator σ := { s with stack := { top with edges := rest } :: below }
      match g.nodes[src]? with
      | none => .fault
      | some (.Item _) =>
        .found (found_trace { s1 with stack := ⟨src, ss, incomingEdges g src⟩ :: s1.stack })
      | some (.Nonterminal _) =>
        if s1.stack.any (fun f => f.index == src) then .deeper s1
        else .deeper { s1 with stack := ⟨src, ss, incomingEdges g src⟩ :: s1.stack }

/-- `PathEnumerator::find_next_trace`, driving `searchStep` with explicit
fuel (the Rust recursion structurally terminates; the termination theorem
C6 exhibits a sufficient fuel).  Returns the Rust boolean together with
the post-state; `none` means either fuel ran out or a panic was hit. -/
def find_next_trace (g : TraceGraph σ ν ι) :
    Nat → PathEnumerator σ → Option (Bool × PathEnumerator σ)
  | 0, _ => none
  | fuel + 1, s =>
    match searchStep g s with
    | .found s2 => some (true, s2)
    | .exhausted s2 => some (false, s2)
    | .fault => none
    | .deeper s2 => find_next_trace g fuel s2

/-- `PathEnumerator::new` (reached through
`TraceGraph::enumerate_paths_from`): look the target item up in the
`indices` map (Rust panics when absent: `none` here), push its frame with
an empty label and its incoming edges, then run `find_next_trace` once. -/
def PathEnumerator.new (g : TraceGraph σ ν ι) (lr0_item : ι) (fuel : Nat) :
    Option (PathEnumerator σ) :=
  match lookupIndex g (.Item lr0_item) with
  | none => none
  | some ix =>
    (find_next_trace g fuel ⟨[⟨ix, SymbolSets.new, incomingEdges g ix⟩], [], 0⟩).map
      (fun r => r.2)

/-- `PathEnumerator::symbols_and_cursor`: the current trace, or `none`
when the stack is empty. -/
def symbols_and_cursor (s : PathEnumerator σ) : Option (List σ × Nat) :=
  if s.stack.isEmpty then none else some (s.symbols, s.cursor)

/-- `PathEnumerator::advance`: pop the top frame (which the Rust code
asserts to be an `Item` frame; assertion failure is `none`), then search
for the next trace.  On an empty stack, return `false` without change. -/
def PathEnumerator.advance (g : TraceGraph σ ν ι) (fuel : Nat) (s : PathEnumerator σ) :
    Option (Bool × PathEnumerator σ) :=
  match s.stack with
  | [] => some (false, s)
  | top :: rest =>
    match g.nodes[top.index]? with
    | some (.Item _) => find_next_trace g fuel { s with stack := rest }
    | _ => none

/-- Iterate `advance` a given number of times (ignoring the booleans). -/
def advances (g : TraceGraph σ ν ι) (fuel : Nat) :
    Nat → PathEnumerator σ → Option (PathEnumerator σ)
  | 0, s => some s
  | n + 1, s =>
    match PathEnumerator.advance g fuel s with
    | none => none
    | some r => advances g fuel n r.2

/-- The enumerator state reached after `new` followed by `n` `advance`s. -/
def stateAfter (g : TraceGraph σ ν ι) (lr0_item : ι) (fuel n : Nat) :
    Option (PathEnumerator σ) :=
  match PathEnumerator.new g lr0_item fuel with
  | none => none
  | some s => advances g fuel n s

/-- The `Iterator` impl for `PathEnumerator`, run to exhaustion: read the
current trace with `symbols_and_cursor`, `advance`, repeat until the
current trace is `none`.  The fuel bounds both the number of iterations
and each inner search. -/
def collectTraces (g : TraceGraph σ ν ι) :
    Nat → PathEnumerator σ → Option (List (List σ × Nat))
  | 0, s =>
    match symbols_and_cursor s with
    | none => some []
    | some _ => none
  | fuel + 1, s =>
    match symbols_and_cursor s with
    | none => some []
    | some t =>
      match PathEnumerator.advance g (fuel + 1) s with
      | none => none
      | some r => (collectTraces g fuel r.2).map (fun ts => t :: ts)

/-- Full enumeration: construct a fresh enumerator for `lr0_item` and
iterate it to exhaustion. -/
def enumerateTraces (g : TraceGraph σ ν ι) (lr0_item : ι) (fuel : Nat) :
    Option (List (List σ × Nat)) :=
  match PathEnumerator.new g lr0_item fuel with
  | none => none
  | some s => collectTraces g fuel s

/-- Bool test: does index `i` name a `Nonterminal` node of `g`? -/
def isNTindex (g : TraceGraph σ ν ι) (i : Nat) : Bool :=
  match g.nodes[i]? with
  | some (.Nonterminal _) => true
  | _ => false

/-- Bool test: does index `i` name an `Item` node of `g`? -/
def isItemIndex (g : TraceGraph σ ν ι) (i : Nat) : Bool :=
  match g.nodes[i]? with
  | some (.Item _) => true
  | _ => false

/-- The set of nonterminal node indices not on the current path. -/
def unvisitedNT (g : TraceGraph σ ν ι) (visited : List Nat) : Finset Nat :=
  (Finset.range g.nodes.length).filter (fun i => isNTindex g i = true ∧ i ∉ visited)

/-- The number of `Nonterminal` nodes of the graph. -/
def ntCount (g : TraceGraph σ ν ι) : Nat :=
  ((Finset.range g.nodes.length).filter (fun i => isNTindex g i = true)).card

/-- The number of simple backward path completions through a list of
pending incoming edges: an edge from an `Item` source completes one path;
an edge from a `Nonterminal` source already on the path contributes
nothing; an edge from a fresh `Nonterminal` source contributes the
completions through that node's own incoming edges.  This is the spec's
count of simple backward paths (no node is revisited). -/
def countPaths (g : TraceGraph σ ν ι) :
    List Nat → List (Nat × SymbolSets σ) → Nat
  | _, [] => 0
  | visited, (src, _) :: rest =>
    (if h : isNTindex g src = true ∧ src ∉ visited
     then countPaths g (src :: visited) (incomingEdges g src)
     else if isItemIndex g src then 1 else 0)
    + countPaths g visited rest
  termination_by visited es => ((unvisitedNT g visited).card, es.length)
  decreasing_by
  · apply Prod.Lex.left
    obtain ⟨hnt, hv⟩ := h
    have hlt : src < g.nodes.length := by
      cases hlen : Nat.lt_or_ge src g.nodes.length with
      | inl hl => exact hl
      | inr hr =>
        rw [isNTindex, List.getElem?_eq_none hr] at hnt
        exact absurd hnt (by simp)
    have hsub : unvisitedNT g (src :: visited) ⊆ unvisitedNT g visited := by
      intro i hi
      simp only [unvisitedNT, Finset.mem_filter, Finset.mem_range, List.mem_cons] at hi ⊢
      exact ⟨hi.1, hi.2.1, fun hmem => hi.2.2 (Or.inr hmem)⟩
    refine Finset.card_lt_card ((Finset.ssubset_iff_of_subset hsub).mpr ⟨src, ?_, ?_⟩)
    · simp only [unvisitedNT, Finset.mem_filter, Finset.mem_range]
      exact ⟨hlt, hnt, hv⟩
    · simp [unvisitedNT]
  · apply Prod.Lex.right
    simp

/-- The simple-path completions still pending in a search stack: for every
frame, the completions through its remaining incoming edges, where the
path occupied so far consists of that frame and all frames below it. -/
def pendingFrames (g : TraceGraph σ ν ι) : List (EnumeratorState σ) → Nat
  | [] => 0
  | f :: below =>
    countPaths g ((f :: below).map (fun x => x.index)) f.edges + pendingFrames g below

/-- The number of simple backward paths from the node of `lr0_item` to any
`Item` node of the graph, following incoming edges. -/
def simplePathCount (g : TraceGraph σ ν ι) (lr0_item : ι) : Nat :=
  match lookupIndex g (.Item lr0_item) with
  | none => 0
  | some ix => countPaths g [ix] (incomingEdges g ix)

/-- The indices of the stack frames that sit on `Nonterminal` nodes. -/
def nonterminalIndices (g : TraceGraph σ ν ι) (st : List (EnumeratorState σ)) : List Nat :=
  (st.map (fun f => f.index)).filter (fun i => isNTindex g i)

/-- Depth budget for the search stack: at most one frame per nonterminal
node plus the two endpoint item frames. -/
def Dbound (g : TraceGraph σ ν ι) : Nat := ntCount g + 2

/-- Weight of one pending edge of a frame that has `belowLen` frames below
it: deeper frames weigh exponentially less, so that trading one edge of a
frame for a whole new frame above it still shrinks the total. -/
def frameWeight (g : TraceGraph σ ν ι) (belowLen : Nat) : Nat :=
  (g.edges.length + 2) ^ (Dbound g - belowLen)

/-- Total weight of the pending edges of a stack. -/
def muStack (g : TraceGraph σ ν ι) : List (EnumeratorState σ) → Nat
  | [] => 0
  | f :: below => f.edges.length * frameWeight g below.length + muStack g below

/-- Termination measure for the search: pending-edge weight plus stack
height (the height makes frame pops strictly decreasing). -/
def measureM (g : TraceGraph σ ν ι) (st : List (EnumeratorState σ)) : Nat :=
  muStack g st + st.length

/-- The number of traces an enumerator in state `s` can still deliver:
one current trace plus the pending completions of the frames below the
top (the top `Item` frame's own iterator is popped before ever being
read, so it contributes nothing). -/
def pendingOf (g : TraceGraph σ ν ι) (s : PathEnumerator σ) : Nat :=
  match s.stack with
  | [] => 0
  | _ :: t => 1 + pendingFrames g t

/-- The prefix block of a trace, from a frame stack listed bottom-to-top
(frame 0 = target item first): the concatenation of the frames' incoming
label prefixes ordered from the outermost frame (the innermost-listed,
just-found start item) inward, which is the stored top-first stack
order.  This is the spec's assembly rule, stated independently of
`found_trace`. -/
def prefixBlock (frames : List (EnumeratorState σ)) : List σ :=
  frames.reverse.flatMap (fun f => f.symbol_sets.pfx)

/-- The cursor symbol of a trace: the optional `cursor` of the label of
frame 1 (the frame adjacent to the target), from a bottom-to-top frame
list. -/
def cursorBlock (frames : List (EnumeratorState σ)) : List σ :=
  match frames[1]? with
  | some f => f.symbol_sets.cursor.toList
  | none => []

/-- The suffix block of a trace: the frames' label suffixes in
bottom-to-top order, from a bottom-to-top frame list. -/
def suffixBlock (frames : List (EnumeratorState σ)) : List σ :=
  frames.flatMap (fun f => f.symbol_sets.suffix)

/-- The assembled-trace shape of an active enumerator state: at least the
target frame and the found start-item frame on the stack, and `symbols`
and `cursor` agreeing with the spec's assembly rule applied to the stack
read bottom-to-top. -/
def TraceShape (s : PathEnumerator σ) : Prop :=
  2 ≤ s.stack.length ∧
    s.symbols =
      prefixBlock s.stack.reverse ++ cursorBlock s.stack.reverse ++
        suffixBlock s.stack.reverse ∧
    s.cursor = (prefixBlock s.stack.reverse).length

/-- Index `i` names a `Nonterminal` node. -/
def ntNode (g : TraceGraph σ ν ι) (i : Nat) : Prop :=
  ∃ n, g.nodes[i]? = some (TraceGraphNode.Nonterminal n)

/-- Index `i` names an `Item` node. -/
def itemNode (g : TraceGraph σ ν ι) (i : Nat) : Prop :=
  ∃ x, g.nodes[i]? = some (TraceGraphNode.Item x)

/-- Invariant of the stack while the search is between traces (every
frame except the bottom target frame sits on a nonterminal, no index
repeats, and every pending edge has a valid source). -/
structure SInv (g : TraceGraph σ ν ι) (st : List (EnumeratorState σ)) : Prop where
  nonempty : st ≠ []
  nodup : (st.map (fun f => f.index)).Nodup
  nts : ∀ f ∈ st.dropLast, ntNode g f.index
  edgesOK : ∀ f ∈ st, ∀ p ∈ f.edges, p.1 < g.nodes.length

/-- Invariant of the stack when a trace is current: an `Item` frame on top
of a between-traces stack. -/
def AInv (g : TraceGraph σ ν ι) (st : List (EnumeratorState σ)) : Prop :=
  ∃ f rest, st = f :: rest ∧ itemNode g f.index ∧ SInv g rest

/-- Every state the public API exposes is either exhausted or active. -/
def StateOK (g : TraceGraph σ ν ι) (s : PathEnumerator σ) : Prop :=
  s.stack = [] ∨ AInv g s.stack

/-- Well-formedness of a frozen graph, automatic for graphs built through
`add_node`/`add_edge` (petgraph guarantees it structurally): the
`indices` map is consistent with the node table, and every edge's source
is a node. -/
def WFGraph (g : TraceGraph σ ν ι) : Prop :=
  (∀ p ∈ g.indices, g.nodes[p.2]? = some p.1) ∧
    (∀ e ∈ g.edges, e.src < g.nodes.length)

/-- Scenario A of the spec with the two edges oriented so that the
backward enumeration from `Item 0` can see them: symbols are coded as
naturals (`a` = 0, the cursor symbol for the nonterminal = 1, `b` = 2). -/
def graphA : TraceGraph Nat Nat Nat :=
  ((TraceGraph.new).add_edge (.Nonterminal 0) (.Item 0) ⟨[0], some 1, [2]⟩).add_edge
    (.Item 1) (.Nonterminal 0) ⟨[], none, []⟩

/-- Scenario A of the spec exactly as claim C2 states it: the edge
`Item(X) -([a], some(N), [b])-> Nonterminal(N)` and the edge
`Nonterminal(N) -([], none, [])-> Item(Y)` (X = `Item 0`, Y = `Item 1`,
N = `Nonterminal 0`; symbols: `a` = 0, `N` = 1, `b` = 2). -/
def graphC2 : TraceGraph Nat Nat Nat :=
  ((TraceGraph.new).add_edge (.Item 0) (.Nonterminal 0) ⟨[0], some 1, [2]⟩).add_edge
    (.Nonterminal 0) (.Item 1) ⟨[], none, []⟩

/-- Scenario C of the spec: a nonterminal cycle `N1 -> N2 -> N1` next to
an acyclic backward path `Item 0 <- N1 <- N2 <- Item 1`. -/
def graphCyc : TraceGraph Nat Nat Nat :=
  ((((TraceGraph.new).add_edge (.Nonterminal 1) (.Item 0) ⟨[3], some 4, [5]⟩).add_edge
      (.Nonterminal 2) (.Nonterminal 1) ⟨[6], none, []⟩).add_edge
      (.Nonterminal 1) (.Nonterminal 2) ⟨[7], none, []⟩).add_edge
    (.Item 1) (.Nonterminal 2) ⟨[8], none, [9]⟩

/-- A graph holding just the node `Item 1`, with no edges: `Item 1`
exists but has zero reachable traces, while `Item 0` is absent. -/
def graphSolo : TraceGraph Nat Nat Nat :=
  ((TraceGraph.new : TraceGraph Nat Nat Nat).add_node (.Item 1)).1

theorem incoming_src_lt (g : TraceGraph σ ν ι) {i : Nat}
    (hWFe : ∀ e ∈ g.edges, e.src < g.nodes.length) :
    ∀ p ∈ incomingEdges g i, p.1 < g.nodes.length := by
  intro p hp
  simp only [incomingEdges, List.mem_map, List.mem_filter] at hp
  obtain ⟨e, ⟨he, _⟩, rfl⟩ := hp
  exact hWFe e he

theorem incoming_len_le (g : TraceGraph σ ν ι) (i : Nat) :
    (incomingEdges g i).length ≤ g.edges.length := by
  simp only [incomingEdges, List.length_map]
  exact List.length_filter_le _ _

theorem frameWeight_pos (g : TraceGraph σ ν ι) (k : Nat) : 0 < frameWeight g k :=
  pow_pos (by omega) _

theorem frameWeight_split (g : TraceGraph σ ν ι) {k : Nat} (hk : k < Dbound g) :
    frameWeight g k = (g.edges.length + 2) * frameWeight g (k + 1) := by
  unfold frameWeight
  have h : Dbound g - k = (Dbound g - (k + 1)) + 1 := by omega
  rw [h, pow_succ]
  ring

theorem index_lt_of_getElem?_some {g : TraceGraph σ ν ι} {i : Nat}
    {n : TraceGraphNode ν ι} (h : g.nodes[i]? = some n) : i < g.nodes.length := by
  cases Nat.lt_or_ge i g.nodes.length with
  | inl hl => exact hl
  | inr hr => rw [List.getElem?_eq_none hr] at h; exact absurd h (by simp)

theorem stack_len_le (g : TraceGraph σ ν ι) {st : List (EnumeratorState σ)}
    (hinv : SInv g st) : st.length ≤ ntCount g + 1 := by
  have hsub : List.Sublist (st.dropLast.map (fun f => f.index)) (st.map (fun f => f.index)) :=
    (List.dropLast_sublist st).map _
  have hnd : (st.dropLast.map (fun f => f.index)).Nodup := hinv.nodup.sublist hsub
  have hmem : ∀ i ∈ st.dropLast.map (fun f => f.index),
      i ∈ (Finset.range g.nodes.length).filter (fun i => isNTindex g i = true) := by
    intro i hi
    simp only [List.mem_map] at hi
    obtain ⟨f, hf, rfl⟩ := hi
    obtain ⟨n, hn⟩ := hinv.nts f hf
    simp only [Finset.mem_filter, Finset.mem_range]
    exact ⟨index_lt_of_getElem?_some hn, by simp [isNTindex, hn]⟩
  have h1 : (st.dropLast.map (fun f => f.index)).toFinset ⊆
      (Finset.range g.nodes.length).filter (fun i => isNTindex g i = true) := by
    intro i hi
    exact hmem i (List.mem_toFinset.mp hi)
  have h2 : (st.dropLast.map (fun f => f.index)).toFinset.card =
      (st.dropLast.map (fun f => f.index)).length := List.toFinset_card_of_nodup hnd
  have h3 : (st.dropLast.map (fun f => f.index)).length ≤ ntCount g := by
    rw [← h2]
    exact Finset.card_le_card h1
  have h4 : (st.dropLast.map (fun f => f.index)).length = st.length - 1 := by
    simp [List.length_dropLast]
  have h5 : 0 < st.length := List.length_pos.mpr hinv.nonempty
  omega

theorem SInv_consume (g : TraceGraph σ ν ι) {top : EnumeratorState σ}
    {below : List (EnumeratorState σ)} {rest : List (Nat × SymbolSets σ)}
    {src : Nat} {ss : SymbolSets σ}
    (he : top.edges = (src, ss) :: rest) (hinv : SInv g (top :: below)) :
    SInv g (({ top with edges := rest } : EnumeratorState σ) :: below) := by
  refine ⟨by simp, ?_, ?_, ?_⟩
  · have : (({ top with edges := rest } : EnumeratorState σ) :: below).map
        (fun f => f.index) = (top :: below).map (fun f => f.index) := by simp
    rw [this]
    exact hinv.nodup
  · intro f hf
    cases below with
    | nil => simp at hf
    | cons b bs =>
      simp only [List.dropLast_cons₂, List.mem_cons] at hf
      rcases hf with rfl | hf
      · have : top ∈ (top :: b :: bs).dropLast := by
          simp [List.dropLast_cons₂]
        exact hinv.nts top this
      · have : f ∈ (top :: b :: bs).dropLast := by
          simp only [List.dropLast_cons₂, List.mem_cons]
          exact Or.inr hf
        exact hinv.nts f this
  · intro f hf p hp
    rcases List.mem_cons.mp hf with rfl | hf
    · have hp2 : p ∈ top.edges := by
        rw [he]
        exact List.mem_cons_of_mem _ hp
      exact hinv.edgesOK top (by simp) p hp2
    · exact hinv.edgesOK f (List.mem_cons_of_mem _ hf) p hp

theorem countPaths_nil (g : TraceGraph σ ν ι) (visited : List Nat) :
    countPaths g visited [] = 0 := by
  simp [countPaths]

theorem countPaths_cons_item {g : TraceGraph σ ν ι} {i : Nat} {x : ι}
    (hn : g.nodes[i]? = some (.Item x)) (visited : List Nat) (ss : SymbolSets σ)
    (rest : List (Nat × SymbolSets σ)) :
    countPaths g visited ((i, ss) :: rest) = 1 + countPaths g visited rest := by
  have h1 : isNTindex g i = false := by simp [isNTindex, hn]
  have h2 : isItemIndex g i = true := by simp [isItemIndex, hn]
  simp only [countPaths]
  rw [dif_neg (by simp [h1]), if_pos h2]

theorem countPaths_cons_nt_mem {g : TraceGraph σ ν ι} {i : Nat} {n : ν}
    (hn : g.nodes[i]? = some (.Nonterminal n)) {visited : List Nat}
    (hv : i ∈ visited) (ss : SymbolSets σ) (rest : List (Nat × SymbolSets σ)) :
    countPaths g visited ((i, ss) :: rest) = countPaths g visited rest := by
  have h2 : isItemIndex g i = false := by simp [isItemIndex, hn]
  simp only [countPaths]
  rw [dif_neg (fun hc => hc.2 hv), if_neg (by simp [h2]), Nat.zero_add]

theorem countPaths_cons_nt_new {g : TraceGraph σ ν ι} {i : Nat} {n : ν}
    (hn : g.nodes[i]? = some (.Nonterminal n)) {visited : List Nat}
    (hv : i ∉ visited) (ss : SymbolSets σ) (rest : List (Nat × SymbolSets σ)) :
    countPaths g visited ((i, ss) :: rest) =
      countPaths g (i :: visited) (incomingEdges g i) + countPaths g visited rest := by
  have h1 : isNTindex g i = true := by simp [isNTindex, hn]
  simp only [countPaths]
  rw [dif_pos ⟨h1, hv⟩]

theorem any_index_eq (st : List (EnumeratorState σ)) (i : Nat) :
    (st.any (fun f => f.index == i)) = true ↔ i ∈ st.map (fun f => f.index) := by
  simp only [List.any_eq_true, List.mem_map, beq_iff_eq]

theorem step_exhausted_spec {g : TraceGraph σ ν ι} {s s2 : PathEnumerator σ}
    (h : searchStep g s = .exhausted s2) : s2 = s ∧ s.stack = [] := by
  cases hs : s.stack with
  | nil =>
    simp only [searchStep, hs] at h
    injection h with h1
    exact ⟨h1.symm, rfl⟩
  | cons top below =>
    cases he : top.edges with
    | nil => simp [searchStep, hs, he] at h
    | cons e rest =>
      obtain ⟨src, ss⟩ := e
      cases hn : g.nodes[src]? with
      | none => simp [searchStep, hs, he, hn] at h
      | some node =>
        cases node with
        | Item x => simp [searchStep, hs, he, hn] at h
        | Nonterminal n =>
          simp only [searchStep, hs, he, hn] at h
          split at h <;> simp at h

theorem step_fault_spec {g : TraceGraph σ ν ι} {s : PathEnumerator σ}
    (h : searchStep g s = .fault) (hinv : SInv g s.stack) : False := by
  cases hs : s.stack with
  | nil => simp [searchStep, hs] at h
  | cons top below =>
    cases he : top.edges with
    | nil => simp [searchStep, hs, he] at h
    | cons e rest =>
      obtain ⟨src, ss⟩ := e
      cases hn : g.nodes[src]? with
      | none =>
        have hlt : src < g.nodes.length := by
          have hmem : (src, ss) ∈ top.edges := by rw [he]; exact List.mem_cons_self _ _
          exact hinv.edgesOK top (by rw [hs]; simp) (src, ss) hmem
        rw [List.getElem?_eq_getElem hlt] at hn
        exact absurd hn (by simp)
      | some node =>
        cases node with
        | Item x => simp [searchStep, hs, he, hn] at h
        | Nonterminal n =>
          simp only [searchStep, hs, he, hn] at h
          split at h <;> simp at h

theorem step_deeper_spec {g : TraceGraph σ ν ι} {s s2 : PathEnumerator σ}
    (hWFe : ∀ e ∈ g.edges, e.src < g.nodes.length)
    (h : searchStep g s = .deeper s2) (hinv : SInv g s.stack) :
    (SInv g s2.stack ∨ s2.stack = []) ∧
      measureM g s2.stack < measureM g s.stack ∧
      pendingFrames g s2.stack = pendingFrames g s.stack := by
  cases hs : s.stack with
  | nil =>
    rw [hs] at hinv
    exact absurd rfl hinv.nonempty
  | cons top below =>
    rw [hs] at hinv
    cases he : top.edges with
    | nil =>
      have h2 : s2.stack = below := by
        simp only [searchStep, hs, he] at h
        injection h with h1
        rw [← h1]
      refine ⟨?_, ?_, ?_⟩
      · cases below with
        | nil => exact Or.inr h2
        | cons b bs =>
          rw [h2]
          refine Or.inl ⟨by simp, ?_, ?_, ?_⟩
          · have hnd := hinv.nodup
            simp only [List.map_cons] at hnd
            exact hnd.of_cons
          · intro f hf
            refine hinv.nts f ?_
            rw [List.dropLast_cons₂]
            exact List.mem_cons_of_mem _ hf
          · intro f hf p hp
            exact hinv.edgesOK f (List.mem_cons_of_mem _ hf) p hp
      · rw [h2]
        simp only [measureM, muStack, he, List.length_nil, Nat.zero_mul, Nat.zero_add,
          List.length_cons]
        omega
      · rw [h2]
        simp only [pendingFrames, he, countPaths_nil, Nat.zero_add]
    | cons e rest =>
      obtain ⟨src, ss⟩ := e
      cases hn : g.nodes[src]? with
      | none => simp [searchStep, hs, he, hn] at h
      | some node =>
        cases node with
        | Item x => simp [searchStep, hs, he, hn] at h
        | Nonterminal n =>
          have hinv2 : SInv g (({ top with edges := rest } : EnumeratorState σ) :: below) :=
            SInv_consume g he hinv
          have hmap : ((({ top with edges := rest } : EnumeratorState σ) :: below).map
              (fun f => f.index)) = (top :: below).map (fun f => f.index) := by simp
          simp only [searchStep, hs, he, hn] at h
          split at h
          case isTrue hcond =>
            injection h with h1
            have h2 : s2.stack = ({ top with edges := rest } : EnumeratorState σ) :: below := by
              rw [← h1]
            have hvis : src ∈ (top :: below).map (fun f => f.index) := by
              rw [← hmap]
              exact (any_index_eq _ _).mp hcond
            refine ⟨Or.inl (by rw [h2]; exact hinv2), ?_, ?_⟩
            · rw [h2]
              have hw := frameWeight_pos g below.length
              simp only [measureM, muStack, he, List.length_cons]
              have h3 : (rest.length + 1) * frameWeight g below.length =
                  rest.length * frameWeight g below.length + frameWeight g below.length := by
                ring
              omega
            · rw [h2]
              simp only [pendingFrames, hmap, he]
              rw [countPaths_cons_nt_mem hn hvis]
          case isFalse hcond =>
            injection h with h1
            have h2 : s2.stack = (⟨src, ss, incomingEdges g src⟩ : EnumeratorState σ) ::
                ({ top with edges := rest } : EnumeratorState σ) :: below := by
              rw [← h1]
            have hnotmem : src ∉ (top :: below).map (fun f => f.index) := by
              intro hmem
              exact hcond ((any_index_eq _ _).mpr (by rw [hmap]; exact hmem))
            refine ⟨?_, ?_, ?_⟩
            · rw [h2]
              refine Or.inl ⟨by simp, ?_, ?_, ?_⟩
              · simp only [List.map_cons]
                refine List.nodup_cons.mpr ⟨?_, ?_⟩
                · simpa using hnotmem
                · have hnd := hinv2.nodup
                  simpa using hnd
              · intro f hf
                rw [List.dropLast_cons₂, List.mem_cons] at hf
                rcases hf with rfl | hf
                · exact ⟨n, hn⟩
                · exact hinv2.nts f hf
              · intro f hf p hp
                rcases List.mem_cons.mp hf with rfl | hf
                · exact incoming_src_lt g hWFe p hp
                · exact hinv2.edgesOK f hf p hp
            · rw [h2]
              have hD : below.length < Dbound g := by
                have hlen := stack_len_le g hinv
                simp only [List.length_cons] at hlen
                unfold Dbound
                omega
              have hsplit := frameWeight_split g hD
              have hinc := incoming_len_le g src
              have hwpos := frameWeight_pos g (below.length + 1)
              have hA : (incomingEdges g src).length * frameWeight g (below.length + 1) ≤
                  g.edges.length * frameWeight g (below.length + 1) :=
                Nat.mul_le_mul_right _ hinc
              simp only [measureM, muStack, he, List.length_cons]
              have h3 : (rest.length + 1) * frameWeight g below.length =
                  rest.length * frameWeight g below.length + frameWeight g below.length := by
                ring
              have h4 : (g.edges.length + 2) * frameWeight g (below.length + 1) =
                  g.edges.length * frameWeight g (below.length + 1) +
                    2 * frameWeight g (below.length + 1) := by
                ring
              omega
            · rw [h2]
              simp only [pendingFrames, hmap, he, List.map_cons]
              rw [countPaths_cons_nt_new hn (by simpa using hnotmem)]
              omega

theorem step_found_shape {g : TraceGraph σ ν ι} {s s2 : PathEnumerator σ}
    (h : searchStep g s = .found s2) : TraceShape s2 := by
  cases hs : s.stack with
  | nil => simp [searchStep, hs] at h
  | cons top below =>
    cases he : top.edges with
    | nil => simp [searchStep, hs, he] at h
    | cons e rest =>
      obtain ⟨src, ss⟩ := e
      cases hn : g.nodes[src]? with
      | none => simp [searchStep, hs, he, hn] at h
      | some node =>
        cases node with
        | Nonterminal n =>
          simp only [searchStep, hs, he, hn] at h
          split at h <;> simp at h
        | Item x =>
          simp only [searchStep, hs, he, hn] at h
          injection h with h1
          rw [← h1]
          refine ⟨by simp [found_trace], ?_, ?_⟩
          · simp [found_trace, prefixBlock, cursorBlock, suffixBlock, List.reverse_reverse]
          · simp [found_trace, prefixBlock, List.reverse_reverse]

theorem step_found_inv {g : TraceGraph σ ν ι} {s s2 : PathEnumerator σ}
    (hWFe : ∀ e ∈ g.edges, e.src < g.nodes.length)
    (h : searchStep g s = .found s2) (hinv : SInv g s.stack) :
    AInv g s2.stack ∧ measureM g s2.stack < measureM g s.stack ∧
      1 + pendingFrames g s2.stack.tail = pendingFrames g s.stack := by
  cases hs : s.stack with
  | nil =>
    rw [hs] at hinv
    exact absurd rfl hinv.nonempty
  | cons top below =>
    rw [hs] at hinv
    cases he : top.edges with
    | nil => simp [searchStep, hs, he] at h
    | cons e rest =>
      obtain ⟨src, ss⟩ := e
      cases hn : g.nodes[src]? with
      | none => simp [searchStep, hs, he, hn] at h
      | some node =>
        cases node with
        | Nonterminal n =>
          simp only [searchStep, hs, he, hn] at h
          split at h <;> simp at h
        | Item x =>
          have hinv2 : SInv g (({ top with edges := rest } : EnumeratorState σ) :: below) :=
            SInv_consume g he hinv
          have hmap : ((({ top with edges := rest } : EnumeratorState σ) :: below).map
              (fun f => f.index)) = (top :: below).map (fun f => f.index) := by simp
          simp only [searchStep, hs, he, hn] at h
          injection h with h1
          have h2 : s2.stack = (⟨src, ss, incomingEdges g src⟩ : EnumeratorState σ) ::
              ({ top with edges := rest } : EnumeratorState σ) :: below := by
            rw [← h1]
            simp [found_trace]
          refine ⟨?_, ?_, ?_⟩
          · exact ⟨_, _, h2, ⟨x, hn⟩, hinv2⟩
          · rw [h2]
            have hD : below.length < Dbound g := by
              have hlen := stack_len_le g hinv
              simp only [List.length_cons] at hlen
              unfold Dbound
              omega
            have hsplit := frameWeight_split g hD
            have hinc := incoming_len_le g src
            have hwpos := frameWeight_pos g (below.length + 1)
            have hA : (incomingEdges g src).length * frameWeight g (below.length + 1) ≤
                g.edges.length * frameWeight g (below.length + 1) :=
              Nat.mul_le_mul_right _ hinc
            simp only [measureM, muStack, he, List.length_cons]
            have h3 : (rest.length + 1) * frameWeight g below.length =
                rest.length * frameWeight g below.length + frameWeight g below.length := by
              ring
            have h4 : (g.edges.length + 2) * frameWeight g (below.length + 1) =
                g.edges.length * frameWeight g (below.length + 1) +
                  2 * frameWeight g (below.length + 1) := by
              ring
            omega
          · rw [h2]
            simp only [List.tail_cons, pendingFrames, hmap, he]
            rw [countPaths_cons_item hn]
            omega

theorem find_some_spec {g : TraceGraph σ ν ι}
    (hWFe : ∀ e ∈ g.edges, e.src < g.nodes.length) :
    ∀ (F : Nat) (s : PathEnumerator σ) (b : Bool) (s2 : PathEnumerator σ),
      find_next_trace g F s = some (b, s2) →
      (SInv g s.stack ∨ s.stack = []) →
      ((b = true → AInv g s2.stack ∧
          1 + pendingFrames g s2.stack.tail = pendingFrames g s.stack ∧
          measureM g s2.stack < measureM g s.stack) ∧
        (b = false → s2.stack = [])) := by
  intro F
  induction F with
  | zero =>
    intro s b s2 h hOK
    simp [find_next_trace] at h
  | succ F ih =>
    intro s b s2 h hOK
    rw [find_next_trace] at h
    cases hstep : searchStep g s with
    | found s3 =>
      rw [hstep] at h
      simp only [Option.some.injEq, Prod.mk.injEq] at h
      obtain ⟨hb, hs2⟩ := h
      subst hb
      subst hs2
      have hS : SInv g s.stack := by
        rcases hOK with hS | hE
        · exact hS
        · simp [searchStep, hE] at hstep
      obtain ⟨hA, hM, hP⟩ := step_found_inv hWFe hstep hS
      exact ⟨fun _ => ⟨hA, hP, hM⟩, fun hb => by simp at hb⟩
    | exhausted s3 =>
      rw [hstep] at h
      simp only [Option.some.injEq, Prod.mk.injEq] at h
      obtain ⟨hb, hs2⟩ := h
      subst hb
      subst hs2
      obtain ⟨rfl, hempty⟩ := step_exhausted_spec hstep
      exact ⟨fun hb => by simp at hb, fun _ => hempty⟩
    | fault =>
      rw [hstep] at h
      simp at h
    | deeper s3 =>
      rw [hstep] at h
      have hS : SInv g s.stack := by
        rcases hOK with hS | hE
        · exact hS
        · simp [searchStep, hE] at hstep
      obtain ⟨hOK3, hM3, hP3⟩ := step_deeper_spec hWFe hstep hS
      have hind := ih s3 b s2 h hOK3
      refine ⟨fun hb => ?_, hind.2⟩
      obtain ⟨hA, hP, hM⟩ := hind.1 hb
      exact ⟨hA, by rw [hP, hP3], lt_trans hM hM3⟩

theorem find_true_shape {g : TraceGraph σ ν ι} :
    ∀ (F : Nat) (s s2 : PathEnumerator σ),
      find_next_trace g F s = some (true, s2) → TraceShape s2 := by
  intro F
  induction F with
  | zero =>
    intro s s2 h
    simp [find_next_trace] at h
  | succ F ih =>
    intro s s2 h
    rw [find_next_trace] at h
    cases hstep : searchStep g s with
    | found s3 =>
      rw [hstep] at h
      simp only [Option.some.injEq, Prod.mk.injEq] at h
      rw [← h.2]
      exact step_found_shape hstep
    | exhausted s3 =>
      rw [hstep] at h
      simp at h
    | fault =>
      rw [hstep] at h
      simp at h
    | deeper s3 =>
      rw [hstep] at h
      exact ih s3 s2 h

theorem find_false_empty {g : TraceGraph σ ν ι} :
    ∀ (F : Nat) (s s2 : PathEnumerator σ),
      find_next_trace g F s = some (false, s2) → s2.stack = [] := by
  intro F
  induction F with
  | zero =>
    intro s s2 h
    simp [find_next_trace] at h
  | succ F ih =>
    intro s s2 h
    rw [find_next_trace] at h
    cases hstep : searchStep g s with
    | found s3 =>
      rw [hstep] at h
      simp at h
    | exhausted s3 =>
      rw [hstep] at h
      simp only [Option.some.injEq, Prod.mk.injEq] at h
      obtain ⟨rfl, hempty⟩ := step_exhausted_spec hstep
      rw [← h.2]
      exact hempty
    | fault =>
      rw [hstep] at h
      simp at h
    | deeper s3 =>
      rw [hstep] at h
      exact ih s3 s2 h

theorem find_suff {g : TraceGraph σ ν ι}
    (hWFe : ∀ e ∈ g.edges, e.src < g.nodes.length) :
    ∀ (F : Nat) (s : PathEnumerator σ),
      (SInv g s.stack ∨ s.stack = []) → measureM g s.stack < F →
      (find_next_trace g F s).isSome := by
  intro F
  induction F with
  | zero =>
    intro s hOK hM
    omega
  | succ F ih =>
    intro s hOK hM
    rw [find_next_trace]
    cases hstep : searchStep g s with
    | found s3 => simp
    | exhausted s3 => simp
    | fault =>
      exfalso
      rcases hOK with hS | hE
      · exact step_fault_spec hstep hS
      · simp [searchStep, hE] at hstep
    | deeper s3 =>
      have hS : SInv g s.stack := by
        rcases hOK with hS | hE
        · exact hS
        · simp [searchStep, hE] at hstep
      obtain ⟨hOK3, hM3, hP3⟩ := step_deeper_spec hWFe hstep hS
      exact ih s3 hOK3 (by omega)

theorem find_mono {g : TraceGraph σ ν ι} :
    ∀ (F : Nat) (s : PathEnumerator σ) (r : Bool × PathEnumerator σ),
      find_next_trace g F s = some r → find_next_trace g (F + 1) s = some r := by
  intro F
  induction F with
  | zero =>
    intro s r h
    simp [find_next_trace] at h
  | succ F ih =>
    intro s r h
    rw [find_next_trace] at h
    rw [find_next_trace]
    cases hstep : searchStep g s with
    | found s3 => rw [hstep] at h; exact h
    | exhausted s3 => rw [hstep] at h; exact h
    | fault => rw [hstep] at h; simp at h
    | deeper s3 => rw [hstep] at h; exact ih s3 r h

theorem measure_tail_lt (g : TraceGraph σ ν ι) (f : EnumeratorState σ)
    (below : List (EnumeratorState σ)) :
    measureM g below < measureM g (f :: below) := by
  simp only [measureM, muStack, List.length_cons]
  omega

theorem advance_some_spec {g : TraceGraph σ ν ι}
    (hWFe : ∀ e ∈ g.edges, e.src < g.nodes.length)
    {F : Nat} {s : PathEnumerator σ} {b : Bool} {s2 : PathEnumerator σ}
    (h : PathEnumerator.advance g F s = some (b, s2)) (hOK : StateOK g s) :
    (b = true → AInv g s2.stack ∧
        1 + pendingFrames g s2.stack.tail = pendingFrames g s.stack.tail ∧
        measureM g s2.stack < measureM g s.stack) ∧
      (b = false → s2.stack = []) := by
  cases hstack : s.stack with
  | nil =>
    simp only [PathEnumerator.advance, hstack, Option.some.injEq, Prod.mk.injEq] at h
    obtain ⟨hb, hs2⟩ := h
    subst hb
    subst hs2
    exact ⟨fun hb => by simp at hb, fun _ => hstack⟩
  | cons top rest =>
    rcases hOK with hE | hA
    · rw [hE] at hstack
      simp at hstack
    · obtain ⟨f, r, heq, ⟨x, hx⟩, hSr⟩ := hA
      rw [hstack] at heq
      injection heq with h1 h2
      subst h1
      subst h2
      simp only [PathEnumerator.advance, hstack, hx] at h
      have hspec := find_some_spec hWFe F { s with stack := rest } b s2 h (Or.inl hSr)
      simp only [List.tail_cons]
      refine ⟨fun hb => ?_, hspec.2⟩
      obtain ⟨hA2, hP2, hM2⟩ := hspec.1 hb
      exact ⟨hA2, hP2, lt_trans hM2 (measure_tail_lt g top rest)⟩

theorem advance_suff {g : TraceGraph σ ν ι}
    (hWFe : ∀ e ∈ g.edges, e.src < g.nodes.length)
    (F : Nat) (s : PathEnumerator σ) (hA : AInv g s.stack)
    (hM : measureM g s.stack.tail < F) :
    (PathEnumerator.advance g F s).isSome := by
  obtain ⟨f, r, heq, ⟨x, hx⟩, hSr⟩ := hA
  simp only [PathEnumerator.advance, heq, hx]
  rw [heq] at hM
  simp only [List.tail_cons] at hM
  exact find_suff hWFe F _ (Or.inl hSr) hM

theorem advance_mono {g : TraceGraph σ ν ι} {F : Nat} {s : PathEnumerator σ}
    {r : Bool × PathEnumerator σ} (h : PathEnumerator.advance g F s = some r) :
    PathEnumerator.advance g (F + 1) s = some r := by
  cases hstack : s.stack with
  | nil => simp only [PathEnumerator.advance, hstack] at h ⊢; exact h
  | cons top rest =>
    cases hx : g.nodes[top.index]? with
    | none =>
      simp only [PathEnumerator.advance, hstack, hx] at h
      exact absurd h (by simp)
    | some node =>
      cases node with
      | Item y =>
        simp only [PathEnumerator.advance, hstack, hx] at h ⊢
        exact find_mono F _ r h
      | Nonterminal n =>
        simp only [PathEnumerator.advance, hstack, hx] at h
        exact absurd h (by simp)

theorem advance_bool {g : TraceGraph σ ν ι} {F : Nat} {s : PathEnumerator σ}
    {b : Bool} {s2 : PathEnumerator σ}
    (h : PathEnumerator.advance g F s = some (b, s2)) :
    b = true ↔ s2.stack ≠ [] := by
  cases hstack : s.stack with
  | nil =>
    simp only [PathEnumerator.advance, hstack, Option.some.injEq, Prod.mk.injEq] at h
    obtain ⟨hb, hs2⟩ := h
    subst hb
    subst hs2
    simp [hstack]
  | cons top rest =>
    cases hx : g.nodes[top.index]? with
    | none =>
      simp only [PathEnumerator.advance, hstack, hx] at h
      exact absurd h (by simp)
    | some node =>
      cases node with
      | Nonterminal n =>
        simp only [PathEnumerator.advance, hstack, hx] at h
        exact absurd h (by simp)
      | Item y =>
        simp only [PathEnumerator.advance, hstack, hx] at h
        cases b with
        | true =>
          have hshape := find_true_shape F _ s2 h
          have : s2.stack ≠ [] := by
            intro hc
            simp [TraceShape, hc] at hshape
          simp [this]
        | false =>
          have hempty := find_false_empty F _ s2 h
          simp [hempty]

theorem advance_preserves {g : TraceGraph σ ν ι}
    (hWFe : ∀ e ∈ g.edges, e.src < g.nodes.length)
    {F : Nat} {s : PathEnumerator σ} {r : Bool × PathEnumerator σ}
    (h : PathEnumerator.advance g F s = some r) (hOK : StateOK g s) :
    StateOK g r.2 := by
  obtain ⟨b, s2⟩ := r
  have hspec := advance_some_spec hWFe h hOK
  cases b with
  | true => exact Or.inr (hspec.1 rfl).1
  | false => exact Or.inl (hspec.2 rfl)

theorem advance_shape {g : TraceGraph σ ν ι} {F : Nat} {s : PathEnumerator σ}
    {r : Bool × PathEnumerator σ} (h : PathEnumerator.advance g F s = some r) :
    TraceShape r.2 ∨ r.2.stack = [] := by
  obtain ⟨b, s2⟩ := r
  cases hstack : s.stack with
  | nil =>
    simp only [PathEnumerator.advance, hstack, Option.some.injEq, Prod.mk.injEq] at h
    obtain ⟨hb, hs2⟩ := h
    subst hb
    subst hs2
    exact Or.inr hstack
  | cons top rest =>
    cases hx : g.nodes[top.index]? with
    | none =>
      simp only [PathEnumerator.advance, hstack, hx] at h
      exact absurd h (by simp)
    | some node =>
      cases node with
      | Nonterminal n =>
        simp only [PathEnumerator.advance, hstack, hx] at h
        exact absurd h (by simp)
      | Item y =>
        simp only [PathEnumerator.advance, hstack, hx] at h
        cases b with
        | true => exact Or.inl (find_true_shape F _ s2 h)
        | false => exact Or.inr (find_false_empty F _ s2 h)

theorem advances_ok {g : TraceGraph σ ν ι}
    (hWFe : ∀ e ∈ g.edges, e.src < g.nodes.length) (F : Nat) :
    ∀ (n : Nat) (s s2 : PathEnumerator σ), StateOK g s →
      advances g F n s = some s2 → StateOK g s2 := by
  intro n
  induction n with
  | zero =>
    intro s s2 hOK h
    simp only [advances, Option.some.injEq] at h
    rw [← h]
    exact hOK
  | succ n ih =>
    intro s s2 hOK h
    rw [advances] at h
    cases hadv : PathEnumerator.advance g F s with
    | none => rw [hadv] at h; simp at h
    | some r =>
      rw [hadv] at h
      exact ih r.2 s2 (advance_preserves hWFe hadv hOK) h

theorem advances_shape {g : TraceGraph σ ν ι} (F : Nat) :
    ∀ (n : Nat) (s s2 : PathEnumerator σ), (TraceShape s ∨ s.stack = []) →
      advances g F n s = some s2 → TraceShape s2 ∨ s2.stack = [] := by
  intro n
  induction n with
  | zero =>
    intro s s2 hsh h
    simp only [advances, Option.some.injEq] at h
    rw [← h]
    exact hsh
  | succ n ih =>
    intro s s2 hsh h
    rw [advances] at h
    cases hadv : PathEnumerator.advance g F s with
    | none => rw [hadv] at h; simp at h
    | some r =>
      rw [hadv] at h
      exact ih r.2 s2 (advance_shape hadv) h

theorem advances_of_empty {g : TraceGraph σ ν ι} (F : Nat) :
    ∀ (n : Nat) (s : PathEnumerator σ), s.stack = [] →
      advances g F n s = some s := by
  intro n
  induction n with
  | zero =>
    intro s hE
    simp [advances]
  | succ n ih =>
    intro s hE
    rw [advances, PathEnumerator.advance, hE]
    exact ih s hE

theorem collect_empty {g : TraceGraph σ ν ι} (F : Nat) {s : PathEnumerator σ}
    (hE : s.stack = []) : collectTraces g F s = some [] := by
  cases F with
  | zero => simp [collectTraces, symbols_and_cursor, hE]
  | succ F => simp [collectTraces, symbols_and_cursor, hE]

theorem collect_spec {g : TraceGraph σ ν ι}
    (hWFe : ∀ e ∈ g.edges, e.src < g.nodes.length) :
    ∀ (F : Nat) (s : PathEnumerator σ) (l : List (List σ × Nat)), StateOK g s →
      collectTraces g F s = some l → l.length ≤ pendingOf g s := by
  intro F
  induction F with
  | zero =>
    intro s l hOK h
    cases hsc : symbols_and_cursor s with
    | none =>
      simp only [collectTraces, hsc, Option.some.injEq] at h
      rw [← h]
      simp
    | some t =>
      simp only [collectTraces, hsc] at h
      exact absurd h (by simp)
  | succ F ih =>
    intro s l hOK h
    cases hsc : symbols_and_cursor s with
    | none =>
      simp only [collectTraces, hsc, Option.some.injEq] at h
      rw [← h]
      simp
    | some t =>
      simp only [collectTraces, hsc] at h
      cases hadv : PathEnumerator.advance g (F + 1) s with
      | none => rw [hadv] at h; simp at h
      | some r =>
        simp only [hadv] at h
        obtain ⟨ts, hts, hl⟩ := Option.map_eq_some'.mp h
        have hne : s.stack ≠ [] := by
          intro hc
          simp [symbols_and_cursor, hc] at hsc
        rcases hOK with hE | hA
        · exact absurd hE hne
        obtain ⟨b2, s2⟩ := r
        have hspec := advance_some_spec hWFe hadv (Or.inr hA)
        have hOK2 : StateOK g s2 := advance_preserves hWFe hadv (Or.inr hA)
        have h2 := ih s2 ts hOK2 hts
        obtain ⟨f, rr, heq, hitem, hSr⟩ := hA
        have hpend : pendingOf g s = 1 + pendingFrames g rr := by
          simp [pendingOf, heq]
        cases b2 with
        | true =>
          obtain ⟨hA2, hP2, hM2⟩ := hspec.1 rfl
          obtain ⟨f2, r2, heq2, hitem2, hSr2⟩ := hA2
          have hpend2 : pendingOf g s2 = 1 + pendingFrames g s2.stack.tail := by
            simp [pendingOf, heq2]
          rw [heq] at hP2
          simp only [List.tail_cons] at hP2
          rw [← hl]
          simp only [List.length_cons]
          omega
        | false =>
          have hemp := hspec.2 rfl
          have hpend2 : pendingOf g s2 = 0 := by simp [pendingOf, hemp]
          rw [← hl]
          simp only [List.length_cons]
          omega

theorem collect_suff {g : TraceGraph σ ν ι}
    (hWFe : ∀ e ∈ g.edges, e.src < g.nodes.length) :
    ∀ (F : Nat) (s : PathEnumerator σ), StateOK g s → measureM g s.stack < F →
      (collectTraces g F s).isSome := by
  intro F
  induction F with
  | zero =>
    intro s hOK hM
    omega
  | succ F ih =>
    intro s hOK hM
    cases hstack : s.stack with
    | nil =>
      rw [collect_empty (F + 1) hstack]
      simp
    | cons top rest =>
      have hA : AInv g s.stack := by
        rcases hOK with hE | hA
        · rw [hE] at hstack; simp at hstack
        · exact hA
      have hsc : symbols_and_cursor s = some (s.symbols, s.cursor) := by
        simp [symbols_and_cursor, hstack]
      have h1 : measureM g rest < measureM g s.stack := by
        rw [hstack]
        exact measure_tail_lt g top rest
      have hadvS := advance_suff hWFe (F + 1) s hA
        (by rw [hstack]; simp only [List.tail_cons]; omega)
      obtain ⟨r, hadv⟩ := Option.isSome_iff_exists.mp hadvS
      simp only [collectTraces, hsc, hadv]
      obtain ⟨b2, s2⟩ := r
      have hspec := advance_some_spec hWFe hadv hOK
      cases b2 with
      | false =>
        have hemp := hspec.2 rfl
        rw [collect_empty F hemp]
        simp
      | true =>
        obtain ⟨hA2, hP2, hM2⟩ := hspec.1 rfl
        have hrec : (collectTraces g F s2).isSome := ih s2 (Or.inr hA2) (by omega)
        obtain ⟨ts, hts⟩ := Option.isSome_iff_exists.mp hrec
        rw [hts]
        simp

theorem collect_mono {g : TraceGraph σ ν ι} :
    ∀ (F : Nat) (s : PathEnumerator σ) (l : List (List σ × Nat)),
      collectTraces g F s = some l → collectTraces g (F + 1) s = some l := by
  intro F
  induction F with
  | zero =>
    intro s l h
    cases hsc : symbols_and_cursor s with
    | none =>
      simp only [collectTraces, hsc, Option.some.injEq] at h
      simp [collectTraces, hsc, h]
    | some t =>
      simp only [collectTraces, hsc] at h
      exact absurd h (by simp)
  | succ F ih =>
    intro s l h
    cases hsc : symbols_and_cursor s with
    | none =>
      simp only [collectTraces, hsc, Option.some.injEq] at h
      simp [collectTraces, hsc, h]
    | some t =>
      simp only [collectTraces, hsc] at h ⊢
      cases hadv : PathEnumerator.advance g (F + 1) s with
      | none => rw [hadv] at h; simp at h
      | some r =>
        simp only [hadv] at h
        simp only [advance_mono hadv]
        obtain ⟨ts, hts, hl⟩ := Option.map_eq_some'.mp h
        have hfin : Option.map (fun ts => t :: ts) (collectTraces g (F + 1) r.2) = some l := by
          rw [ih r.2 ts hts]
          simp [hl]
        exact hfin

theorem SInv_init (g : TraceGraph σ ν ι)
    (hWFe : ∀ e ∈ g.edges, e.src < g.nodes.length) (ix : Nat) :
    SInv g [⟨ix, SymbolSets.new, incomingEdges g ix⟩] := by
  refine ⟨by simp, by simp, ?_, ?_⟩
  · intro f hf
    simp at hf
  · intro f hf p hp
    simp only [List.mem_singleton] at hf
    subst hf
    exact incoming_src_lt g hWFe p hp

theorem pendingFrames_init (g : TraceGraph σ ν ι) (ix : Nat) :
    pendingFrames g [⟨ix, SymbolSets.new, incomingEdges g ix⟩] =
      countPaths g [ix] (incomingEdges g ix) := by
  simp [pendingFrames]

theorem new_cases {g : TraceGraph σ ν ι} {x : ι} {F : Nat} {s : PathEnumerator σ}
    (h : PathEnumerator.new g x F = some s) :
    ∃ ix b, lookupIndex g (.Item x) = some ix ∧
      find_next_trace g F ⟨[⟨ix, SymbolSets.new, incomingEdges g ix⟩], [], 0⟩ =
        some (b, s) := by
  cases hlook : lookupIndex g (.Item x) with
  | none =>
    simp only [PathEnumerator.new, hlook] at h
    exact absurd h (by simp)
  | some ix =>
    simp only [PathEnumerator.new, hlook] at h
    obtain ⟨⟨b, s2⟩, hr, hs⟩ := Option.map_eq_some'.mp h
    refine ⟨ix, b, rfl, ?_⟩
    rw [hr]
    simp only at hs
    rw [hs]

theorem new_shape {g : TraceGraph σ ν ι} {x : ι} {F : Nat} {s : PathEnumerator σ}
    (h : PathEnumerator.new g x F = some s) : TraceShape s ∨ s.stack = [] := by
  obtain ⟨ix, b, hlook, hfind⟩ := new_cases h
  cases b with
  | true => exact Or.inl (find_true_shape F _ s hfind)
  | false => exact Or.inr (find_false_empty F _ s hfind)

theorem new_spec {g : TraceGraph σ ν ι} {x : ι} {F : Nat} {s : PathEnumerator σ}
    (hWF : WFGraph g) (h : PathEnumerator.new g x F = some s) :
    StateOK g s ∧ pendingOf g s ≤ simplePathCount g x := by
  obtain ⟨ix, b, hlook, hfind⟩ := new_cases h
  have hWFe := hWF.2
  have hinit := SInv_init g hWFe ix
  have hspec := find_some_spec hWFe F _ b s hfind (Or.inl hinit)
  have hsimple : simplePathCount g x = countPaths g [ix] (incomingEdges g ix) := by
    simp [simplePathCount, hlook]
  cases b with
  | true =>
    obtain ⟨hA, hP, hM⟩ := hspec.1 rfl
    refine ⟨Or.inr hA, ?_⟩
    obtain ⟨f2, r2, heq2, hi2, hS2⟩ := hA
    have hpend : pendingOf g s = 1 + pendingFrames g s.stack.tail := by
      simp [pendingOf, heq2]
    have hchain : (1 : Nat) + pendingFrames g s.stack.tail =
        pendingFrames g [⟨ix, SymbolSets.new, incomingEdges g ix⟩] := hP
    rw [hpend, hchain, pendingFrames_init, hsimple]
  | false =>
    have hemp := hspec.2 rfl
    refine ⟨Or.inl hemp, ?_⟩
    simp [pendingOf, hemp]

theorem new_suff {g : TraceGraph σ ν ι} (hWF : WFGraph g) {x : ι} {ix : Nat}
    (hlook : lookupIndex g (.Item x) = some ix) (F : Nat)
    (hF : measureM g [⟨ix, SymbolSets.new, incomingEdges g ix⟩] < F) :
    (PathEnumerator.new g x F).isSome := by
  simp only [PathEnumerator.new, hlook]
  have hs := find_suff hWF.2 F ⟨[⟨ix, SymbolSets.new, incomingEdges g ix⟩], [], 0⟩
    (Or.inl (SInv_init g hWF.2 ix)) hF
  obtain ⟨r, hr⟩ := Option.isSome_iff_exists.mp hs
  rw [hr]
  simp

theorem new_mono {g : TraceGraph σ ν ι} {x : ι} {F : Nat} {s : PathEnumerator σ}
    (h : PathEnumerator.new g x F = some s) :
    PathEnumerator.new g x (F + 1) = some s := by
  cases hlook : lookupIndex g (.Item x) with
  | none =>
    simp only [PathEnumerator.new, hlook] at h
    exact absurd h (by simp)
  | some ix =>
    simp only [PathEnumerator.new, hlook] at h ⊢
    obtain ⟨r, hr, hs⟩ := Option.map_eq_some'.mp h
    rw [find_mono F _ r hr]
    simp [hs]

theorem stateAfter_ok {g : TraceGraph σ ν ι} {x : ι} {F n : Nat}
    {s : PathEnumerator σ} (hWF : WFGraph g) (h : stateAfter g x F n = some s) :
    StateOK g s := by
  cases hnew : PathEnumerator.new g x F with
  | none =>
    simp only [stateAfter, hnew] at h
    exact absurd h (by simp)
  | some s0 =>
    simp only [stateAfter, hnew] at h
    exact advances_ok hWF.2 F n s0 s (new_spec hWF hnew).1 h

theorem stateAfter_shape {g : TraceGraph σ ν ι} {x : ι} {F n : Nat}
    {s : PathEnumerator σ} (h : stateAfter g x F n = some s) :
    TraceShape s ∨ s.stack = [] := by
  cases hnew : PathEnumerator.new g x F with
  | none =>
    simp only [stateAfter, hnew] at h
    exact absurd h (by simp)
  | some s0 =>
    simp only [stateAfter, hnew] at h
    exact advances_shape F n s0 s (new_shape hnew) h

theorem ntIndices_nodup_OK {g : TraceGraph σ ν ι} {s : PathEnumerator σ}
    (hOK : StateOK g s) : (nonterminalIndices g s.stack).Nodup := by
  rcases hOK with hE | hA
  · simp [nonterminalIndices, hE]
  · obtain ⟨f, r, heq, ⟨x, hx⟩, hSr⟩ := hA
    rw [heq]
    have hni : isNTindex g f.index = false := by simp [isNTindex, hx]
    simp only [nonterminalIndices, List.map_cons, List.filter_cons, hni]
    simp only [Bool.false_eq_true, if_false]
    exact List.Nodup.filter _ hSr.nodup

theorem enumerate_mono {g : TraceGraph σ ν ι} {x : ι} {F : Nat}
    {l : List (List σ × Nat)} (h : enumerateTraces g x F = some l) :
    enumerateTraces g x (F + 1) = some l := by
  cases hnew : PathEnumerator.new g x F with
  | none =>
    simp only [enumerateTraces, hnew] at h
    exact absurd h (by simp)
  | some s =>
    simp only [enumerateTraces, hnew] at h
    simp only [enumerateTraces, new_mono hnew]
    exact collect_mono F s l h

theorem enumerate_mono_le {g : TraceGraph σ ν ι} {x : ι} {F G : Nat}
    (hFG : F ≤ G) {l : List (List σ × Nat)} (h : enumerateTraces g x F = some l) :
    enumerateTraces g x G = some l := by
  induction G with
  | zero =>
    have : F = 0 := by omega
    rw [← this]
    exact h
  | succ G ih =>
    rcases Nat.lt_or_ge F (G + 1) with hlt | hge
    · exact enumerate_mono (ih (by omega))
    · have : F = G + 1 := by omega
      rw [← this]
      exact h

/-- Claim C1: for every frozen graph and every trace the enumerator
reports — i.e. whenever the state reached by `enumerate_paths_from`
followed by any number of `advance` calls has a current trace — the
assembled symbol sequence equals: the concatenation of the frames'
incoming-label prefix sequences, frames ordered from the outermost
(closest to the target, which is the stack read from the just-found start
item down to the target frame) inward; then the single cursor symbol of
frame 1's label if present; then the frames' suffix sequences in
bottom-to-top order.  The reported cursor offset equals the length of the
prefix block, and hence 0 ≤ offset ≤ total length.  (The stack is listed
bottom-to-top as `s.stack.reverse`, frame 0 first.) -/
theorem claim_C1_trace_assembly (g : TraceGraph σ ν ι) (x : ι) (F n : Nat)
    (s : PathEnumerator σ) (sy : List σ) (c : Nat)
    (h : stateAfter g x F n = some s)
    (ha : symbols_and_cursor s = some (sy, c)) :
    sy = prefixBlock s.stack.reverse ++ cursorBlock s.stack.reverse ++
        suffixBlock s.stack.reverse ∧
      c = (prefixBlock s.stack.reverse).length ∧ c ≤ sy.length := by
  have hne : s.stack ≠ [] := by
    intro hc
    simp [symbols_and_cursor, hc] at ha
  have hval : sy = s.symbols ∧ c = s.cursor := by
    cases hstk : s.stack with
    | nil => exact absurd hstk hne
    | cons top rest =>
      simp only [symbols_and_cursor, hstk, List.isEmpty_cons, Bool.false_eq_true,
        if_false, Option.some.injEq, Prod.mk.injEq] at ha
      exact ⟨ha.1.symm, ha.2.symm⟩
  obtain ⟨hsy, hc⟩ := hval
  rcases stateAfter_shape h with hsh | hE
  · obtain ⟨hlen, hsym, hcur⟩ := hsh
    refine ⟨by rw [hsy, hsym], by rw [hc, hcur], ?_⟩
    rw [hsy, hc, hsym, hcur]
    simp [List.length_append]
  · exact absurd hE hne

/-- Claim C3: for every well-formed frozen graph (graphs built through the
`add_node`/`add_edge` interface are well formed, as petgraph guarantees
structurally) and every state the enumerator reaches — in particular at
every moment a trace is reported — the frame stack contains no
`Nonterminal` node identifier twice; this covers graphs with nonterminal
cycles such as `N1 -> N2 -> N1`. -/
theorem claim_C3_simple_path (g : TraceGraph σ ν ι) (x : ι) (F n : Nat)
    (s : PathEnumerator σ) (hWF : WFGraph g) (h : stateAfter g x F n = some s) :
    (nonterminalIndices g s.stack).Nodup :=
  ntIndices_nodup_OK (stateAfter_ok hWF h)

/-- Claim C7: exhaustion is terminal.  Once `symbols_and_cursor` returns
nothing, any number of further `advance` calls leaves the enumerator in
the same state, so `symbols_and_cursor` keeps returning nothing. -/
theorem claim_C7_terminal_exhaustion (g : TraceGraph σ ν ι) (F n : Nat)
    (s : PathEnumerator σ) (h : symbols_and_cursor s = none) :
    advances g F n s = some s ∧ symbols_and_cursor s = none := by
  have hE : s.stack = [] := by
    cases hstk : s.stack with
    | nil => rfl
    | cons top rest => simp [symbols_and_cursor, hstk] at h
  exact ⟨advances_of_empty F n s hE, h⟩

/-- Claim C9: whenever the enumerator reports a trace, the frame stack
holds at least two frames (the target frame plus the just-found start
item frame), so the read of the frame at stack position 1 performed by
`found_trace` is in bounds — including the direct item-to-item case with
no intermediate nonterminal frame. -/
theorem claim_C9_report_depth (g : TraceGraph σ ν ι) (x : ι) (F n : Nat)
    (s : PathEnumerator σ) (t : List σ × Nat)
    (h : stateAfter g x F n = some s) (ha : symbols_and_cursor s = some t) :
    2 ≤ s.stack.length ∧ (s.stack.reverse[1]?).isSome = true := by
  have hne : s.stack ≠ [] := by
    intro hc
    simp [symbols_and_cursor, hc] at ha
  rcases stateAfter_shape h with hsh | hE
  · obtain ⟨hlen, hsym, hcur⟩ := hsh
    refine ⟨hlen, ?_⟩
    rw [List.getElem?_eq_getElem (by simp; omega)]
    simp
  · exact absurd hE hne

/-- Claim C10: `advance` returns `true` exactly when a further trace
exists: the boolean is `true` if and only if `symbols_and_cursor` returns
a trace afterwards, and `false` if and only if the enumerator is
exhausted afterwards. -/
theorem claim_C10_advance_iff_active (g : TraceGraph σ ν ι) (F : Nat)
    (s : PathEnumerator σ) (b : Bool) (s2 : PathEnumerator σ)
    (h : PathEnumerator.advance g F s = some (b, s2)) :
    (b = true ↔ (symbols_and_cursor s2).isSome = true) ∧
      (b = false ↔ symbols_and_cursor s2 = none) := by
  have hb := advance_bool h
  have hsc : (symbols_and_cursor s2).isSome = true ↔ s2.stack ≠ [] := by
    cases hstk : s2.stack with
    | nil => simp [symbols_and_cursor, hstk]
    | cons top rest => simp [symbols_and_cursor, hstk]
  have hscn : symbols_and_cursor s2 = none ↔ s2.stack = [] := by
    cases hstk : s2.stack with
    | nil => simp [symbols_and_cursor, hstk]
    | cons top rest => simp [symbols_and_cursor, hstk]
  constructor
  · rw [hsc]
    exact hb
  · rw [hscn]
    constructor
    · intro hfalse
      rcases List.eq_nil_or_concat s2.stack with hE | hcons
      · exact hE
      · exfalso
        have : b = true := hb.mpr (by rcases hcons with ⟨l2, a2, hE2⟩; rw [hE2]; simp)
        rw [this] at hfalse
        exact absurd hfalse (by simp)
    · intro hE
      cases b with
      | false => rfl
      | true => exact absurd hE (hb.mp rfl)

/-- Claim C8: enumeration is deterministic — any two complete runs of the
full enumeration from the same item over the same frozen graph (two
independently constructed enumerators iterated to exhaustion, here with
any two sufficient fuels) produce the same ordered list of traces. -/
theorem claim_C8_determinism (g : TraceGraph σ ν ι) (x : ι) (F1 F2 : Nat)
    (l1 l2 : List (List σ × Nat))
    (h1 : enumerateTraces g x F1 = some l1)
    (h2 : enumerateTraces g x F2 = some l2) : l1 = l2 := by
  rcases Nat.le_total F1 F2 with hle | hle
  · have hh := enumerate_mono_le hle h1
    rw [hh] at h2
    exact Option.some_inj.mp h2
  · have hh := enumerate_mono_le hle h2
    rw [hh] at h1
    exact (Option.some_inj.mp h1).symm

theorem add_node_of_lookup {g : TraceGraph σ ν ι} {n : TraceGraphNode ν ι} {i : Nat}
    (h : lookupIndex g n = some i) : g.add_node n = (g, i) := by
  simp [TraceGraph.add_node, h]

theorem lookup_add_node_self (g : TraceGraph σ ν ι) (n : TraceGraphNode ν ι) :
    lookupIndex (g.add_node n).1 n = some (g.add_node n).2 := by
  cases h : lookupIndex g n with
  | some i => simp [TraceGraph.add_node, h]
  | none =>
    simp only [TraceGraph.add_node, h]
    simp [lookupIndex, List.find?]

theorem lookup_add_node_preserved {g : TraceGraph σ ν ι}
    {m : TraceGraphNode ν ι} {i : Nat} (n : TraceGraphNode ν ι)
    (h : lookupIndex g m = some i) : lookupIndex (g.add_node n).1 m = some i := by
  cases hn : lookupIndex g n with
  | some j => simp [TraceGraph.add_node, hn, h]
  | none =>
    have hne : (n = m) = False := by
      simp only [eq_iff_iff, iff_false]
      intro he
      rw [he, h] at hn
      exact absurd hn (by simp)
    simp only [TraceGraph.add_node, hn]
    simp only [lookupIndex, List.find?, hne, decide_False]
    exact h

theorem lookup_set_edges (g : TraceGraph σ ν ι) (E : List (GraphEdge σ))
    (m : TraceGraphNode ν ι) :
    lookupIndex { g with edges := E } m = lookupIndex g m := rfl

theorem add_edge_no_op {g : TraceGraph σ ν ι} {a b : TraceGraphNode ν ι}
    {l : SymbolSets σ} {ia ib : Nat}
    (ha : lookupIndex g a = some ia) (hb : lookupIndex g b = some ib)
    (hc : g.edges.any (fun e => e.src == ia && e.tgt == ib && e.label == l) = true) :
    g.add_edge a b l = g := by
  simp only [TraceGraph.add_edge, add_node_of_lookup ha, add_node_of_lookup hb, hc, if_true]

theorem add_edge_post (g : TraceGraph σ ν ι) (a b : TraceGraphNode ν ι)
    (l : SymbolSets σ) :
    ∃ ia ib, lookupIndex (g.add_edge a b l) a = some ia ∧
      lookupIndex (g.add_edge a b l) b = some ib ∧
      (g.add_edge a b l).edges.any
        (fun e => e.src == ia && e.tgt == ib && e.label == l) = true := by
  have ha1 : lookupIndex ((g.add_node a).1.add_node b).1 a = some (g.add_node a).2 :=
    lookup_add_node_preserved b (lookup_add_node_self g a)
  have hb1 : lookupIndex ((g.add_node a).1.add_node b).1 b =
      some ((g.add_node a).1.add_node b).2 :=
    lookup_add_node_self (g.add_node a).1 b
  refine ⟨(g.add_node a).2, ((g.add_node a).1.add_node b).2, ?_⟩
  simp only [TraceGraph.add_edge]
  cases hc : ((g.add_node a).1.add_node b).1.edges.any
      (fun e => e.src == (g.add_node a).2 &&
        e.tgt == ((g.add_node a).1.add_node b).2 && e.label == l) with
  | true =>
    simp only [hc, if_true]
    exact ⟨ha1, hb1, by simp [hc]⟩
  | false =>
    simp only [hc, Bool.false_eq_true, if_false]
    refine ⟨?_, ?_, ?_⟩
    · rw [lookup_set_edges]
      exact ha1
    · rw [lookup_set_edges]
      exact hb1
    · simp

theorem add_edge_insert {g : TraceGraph σ ν ι} {a b : TraceGraphNode ν ι}
    {l2 : SymbolSets σ} {ia ib : Nat}
    (ha : lookupIndex g a = some ia) (hb : lookupIndex g b = some ib)
    (hne : g.edges.any (fun e => e.src == ia && e.tgt == ib && e.label == l2) = false) :
    edgeCount (g.add_edge a b l2) a b = edgeCount g a b + 1 := by
  simp only [TraceGraph.add_edge, add_node_of_lookup ha, add_node_of_lookup hb, hne,
    Bool.false_eq_true, if_false]
  simp only [edgeCount, lookup_set_edges, ha, hb]
  simp [List.filter_cons]

theorem hasEdge_iff_any {g : TraceGraph σ ν ι} {a b : TraceGraphNode ν ι}
    {l2 : SymbolSets σ} {ia ib : Nat}
    (ha : lookupIndex g a = some ia) (hb : lookupIndex g b = some ib) :
    hasEdge g a b l2 =
      g.edges.any (fun e => e.src == ia && e.tgt == ib && e.label == l2) := by
  simp [hasEdge, ha, hb]

/-- Claim C5: `add_edge` is idempotent per (from, to, label) triple — for
every graph state, repeating a call with an identical (from, to, label)
leaves the graph (and hence the edge count between the pair) unchanged —
while a call with a label different from every edge already present
between the same pair inserts exactly one new edge. -/
theorem claim_C5_add_edge_dedup (g : TraceGraph σ ν ι) (a b : TraceGraphNode ν ι)
    (l l2 : SymbolSets σ)
    (hfresh : hasEdge (g.add_edge a b l) a b l2 = false) :
    (g.add_edge a b l).add_edge a b l = g.add_edge a b l ∧
      edgeCount ((g.add_edge a b l).add_edge a b l2) a b =
        edgeCount (g.add_edge a b l) a b + 1 := by
  obtain ⟨ia, ib, ha, hb, hc⟩ := add_edge_post g a b l
  refine ⟨add_edge_no_op ha hb hc, ?_⟩
  have hne : (g.add_edge a b l).edges.any
      (fun e => e.src == ia && e.tgt == ib && e.label == l2) = false := by
    rw [← hasEdge_iff_any ha hb]
    exact hfresh
  exact add_edge_insert ha hb hne

/-- Claim C4 (code bug): `enumerate_paths_from` on an item never inserted
into the graph reaches the unchecked `indices[&node]` lookup and panics
(modelled as `none`), instead of surfacing a typed precondition-violation
error as the spec requires; an item that exists with zero reachable
traces instead yields an enumerator that is immediately exhausted
(`symbols_and_cursor` returns nothing from the start). -/
theorem claim_C4_absent_item_panics :
    lookupIndex graphSolo (.Item 0) = none ∧
      PathEnumerator.new graphSolo (0 : Nat) 10 = (none : Option (PathEnumerator Nat)) ∧
      (∃ s : PathEnumerator Nat, PathEnumerator.new graphSolo (1 : Nat) 10 = some s ∧
        symbols_and_cursor s = none) := by
  refine ⟨by decide, by decide, ⟨⟨[], [], 0⟩, by decide, by decide⟩⟩

/-- Claim C2 counterexample: with the graph holding exactly the two edges
as the claim states them — `Item 0` to `Nonterminal 0` labelled
`([a], some N, [b])` and `Nonterminal 0` to `Item 1` labelled
`([], none, [])` — enumeration from `Item 0` walks incoming edges, finds
none, and yields no trace at all, not the claimed single trace
`[a, N, b]` with cursor 1. -/
theorem claim_C2_counterexample :
    enumerateTraces graphC2 (0 : Nat) 30 = some [] ∧
      (some [] : Option (List (List Nat × Nat))) ≠ some [([0, 1, 2], 1)] := by
  exact ⟨by decide, by decide⟩

/-- Claim C2 amended: with the two Scenario A edges oriented so that the
backward enumeration can traverse them — `Nonterminal 0` to `Item 0`
labelled `([a], some N, [b])` and `Item 1` to `Nonterminal 0` labelled
`([], none, [])` — `enumerate_paths_from (Item 0)` yields exactly one
trace, with symbols `[a, N, b]` and cursor offset 1 (the position of N;
symbols are coded a = 0, N = 1, b = 2). -/
theorem claim_C2_amended :
    enumerateTraces graphA (0 : Nat) 30 = some [([0, 1, 2], 1)] := by
  decide

/-- Claim C6: for every well-formed frozen graph — cyclic nonterminal
subgraphs included — and every target item present in it, the full
enumeration terminates: some fuel lets `enumerateTraces` run to
exhaustion, and the resulting trace list is finite with length bounded by
the number of simple backward paths from the target. -/
theorem claim_C6_termination (g : TraceGraph σ ν ι) (x : ι) (ix : Nat)
    (hWF : WFGraph g) (hlook : lookupIndex g (.Item x) = some ix) :
    ∃ F l, enumerateTraces g x F = some l ∧ l.length ≤ simplePathCount g x := by
  have hnewS := new_suff hWF hlook
    (measureM g [⟨ix, SymbolSets.new, incomingEdges g ix⟩] + 1) (by omega)
  obtain ⟨s, hnew⟩ := Option.isSome_iff_exists.mp hnewS
  have hspec := new_spec hWF hnew
  obtain ⟨ix2, b, hlook2, hfind⟩ := new_cases hnew
  have hix : ix2 = ix := by
    rw [hlook] at hlook2
    exact (Option.some_inj.mp hlook2).symm
  subst hix
  have hMs : measureM g s.stack <
      measureM g [⟨ix2, SymbolSets.new, incomingEdges g ix2⟩] + 1 := by
    have hfs := find_some_spec hWF.2 _ _ b s hfind (Or.inl (SInv_init g hWF.2 ix2))
    cases b with
    | true =>
      have hlt : measureM g s.stack <
          measureM g [⟨ix2, SymbolSets.new, incomingEdges g ix2⟩] := (hfs.1 rfl).2.2
      omega
    | false =>
      have hE := hfs.2 rfl
      rw [hE]
      simp [measureM, muStack]
  have hcol := collect_suff hWF.2 _ s hspec.1 hMs
  obtain ⟨l, hl⟩ := Option.isSome_iff_exists.mp hcol
  refine ⟨measureM g [⟨ix2, SymbolSets.new, incomingEdges g ix2⟩] + 1, l, ?_, ?_⟩
  · simp only [enumerateTraces, hnew]
    exact hl
  · exact le_trans (collect_spec hWF.2 _ s l hspec.1 hl) hspec.2

/-- Witness for C1: the single trace of `graphA`, reported right after
construction, assembles as claimed (symbols `[0, 1, 2]`, cursor 1). -/
theorem claim_C1_witness :
    ([0, 1, 2] : List Nat) =
        prefixBlock (⟨[⟨2, ⟨[], none, []⟩, []⟩, ⟨0, ⟨[0], some 1, [2]⟩, []⟩,
            ⟨1, ⟨[], none, []⟩, []⟩], [0, 1, 2], 1⟩ : PathEnumerator Nat).stack.reverse ++
          cursorBlock (⟨[⟨2, ⟨[], none, []⟩, []⟩, ⟨0, ⟨[0], some 1, [2]⟩, []⟩,
            ⟨1, ⟨[], none, []⟩, []⟩], [0, 1, 2], 1⟩ : PathEnumerator Nat).stack.reverse ++
          suffixBlock (⟨[⟨2, ⟨[], none, []⟩, []⟩, ⟨0, ⟨[0], some 1, [2]⟩, []⟩,
            ⟨1, ⟨[], none, []⟩, []⟩], [0, 1, 2], 1⟩ : PathEnumerator Nat).stack.reverse ∧
      (1 : Nat) = (prefixBlock (⟨[⟨2, ⟨[], none, []⟩, []⟩, ⟨0, ⟨[0], some 1, [2]⟩, []⟩,
          ⟨1, ⟨[], none, []⟩, []⟩], [0, 1, 2], 1⟩ :
            PathEnumerator Nat).stack.reverse).length ∧
      (1 : Nat) ≤ ([0, 1, 2] : List Nat).length :=
  claim_C1_trace_assembly graphA 0 30 0
    ⟨[⟨2, ⟨[], none, []⟩, []⟩, ⟨0, ⟨[0], some 1, [2]⟩, []⟩,
      ⟨1, ⟨[], none, []⟩, []⟩], [0, 1, 2], 1⟩ [0, 1, 2] 1 (by decide) (by decide)

/-- Witness for C3: the trace of the cyclic graph `graphCyc`, reported
right after construction, has a duplicate-free list of nonterminal frame
indices. -/
theorem claim_C3_witness :
    (nonterminalIndices graphCyc
      (⟨[⟨3, ⟨[8], none, [9]⟩, []⟩, ⟨2, ⟨[6], none, []⟩, [(0, ⟨[7], none, []⟩)]⟩,
        ⟨0, ⟨[3], some 4, [5]⟩, []⟩, ⟨1, ⟨[], none, []⟩, []⟩],
        [8, 6, 3, 4, 5, 9], 3⟩ : PathEnumerator Nat).stack).Nodup :=
  claim_C3_simple_path graphCyc 0 40 0
    ⟨[⟨3, ⟨[8], none, [9]⟩, []⟩, ⟨2, ⟨[6], none, []⟩, [(0, ⟨[7], none, []⟩)]⟩,
      ⟨0, ⟨[3], some 4, [5]⟩, []⟩, ⟨1, ⟨[], none, []⟩, []⟩],
      [8, 6, 3, 4, 5, 9], 3⟩ ⟨by decide, by decide⟩ (by decide)

/-- Witness for C5: on the empty graph, adding one edge twice keeps it
deduplicated, while adding a second, fresh label between the same node
pair raises the edge count from one to two. -/
theorem claim_C5_witness :
    ((TraceGraph.new : TraceGraph Nat Nat Nat).add_edge (.Nonterminal 0) (.Item 0)
          ⟨[0], some 1, [2]⟩).add_edge (.Nonterminal 0) (.Item 0) ⟨[0], some 1, [2]⟩ =
        (TraceGraph.new : TraceGraph Nat Nat Nat).add_edge (.Nonterminal 0) (.Item 0)
          ⟨[0], some 1, [2]⟩ ∧
      edgeCount (((TraceGraph.new : TraceGraph Nat Nat Nat).add_edge (.Nonterminal 0)
            (.Item 0) ⟨[0], some 1, [2]⟩).add_edge (.Nonterminal 0) (.Item 0)
            ⟨[], none, []⟩) (.Nonterminal 0) (.Item 0) =
        edgeCount ((TraceGraph.new : TraceGraph Nat Nat Nat).add_edge (.Nonterminal 0)
          (.Item 0) ⟨[0], some 1, [2]⟩) (.Nonterminal 0) (.Item 0) + 1 :=
  claim_C5_add_edge_dedup TraceGraph.new (.Nonterminal 0) (.Item 0)
    ⟨[0], some 1, [2]⟩ ⟨[], none, []⟩ (by decide)

/-- Witness for C6: enumeration over the cyclic graph `graphCyc`
terminates with a trace list bounded by its simple backward path count. -/
theorem claim_C6_witness :
    ∃ F l, enumerateTraces graphCyc (0 : Nat) F = some l ∧
      l.length ≤ simplePathCount graphCyc 0 :=
  claim_C6_termination graphCyc 0 1 ⟨by decide, by decide⟩ (by decide)

/-- Witness for C7: an exhausted enumerator state stays unchanged and empty
through two further `advance` calls. -/
theorem claim_C7_witness :
    advances graphSolo 3 2 (⟨[], [], 0⟩ : PathEnumerator Nat) = some ⟨[], [], 0⟩ ∧
      symbols_and_cursor (⟨[], [], 0⟩ : PathEnumerator Nat) = none :=
  claim_C7_terminal_exhaustion graphSolo 3 2 ⟨[], [], 0⟩ (by decide)

/-- Witness for C8: two full enumerations of `graphA` from `Item 0` with
different sufficient fuels produce the same single-trace list. -/
theorem claim_C8_witness :
    enumerateTraces graphA (0 : Nat) 30 = some [([0, 1, 2], 1)] ∧
      enumerateTraces graphA (0 : Nat) 31 = some [([0, 1, 2], 1)] ∧
      ([([0, 1, 2], 1)] : List (List Nat × Nat)) = [([0, 1, 2], 1)] :=
  ⟨by decide, by decide,
    claim_C8_determinism graphA 0 30 31 [([0, 1, 2], 1)] [([0, 1, 2], 1)]
      (by decide) (by decide)⟩

/-- Witness for C9: the reported trace of `graphA` sits on a stack of
three frames, and the stack-position-1 read is in bounds. -/
theorem claim_C9_witness :
    2 ≤ (⟨[⟨2, ⟨[], none, []⟩, []⟩, ⟨0, ⟨[0], some 1, [2]⟩, []⟩,
        ⟨1, ⟨[], none, []⟩, []⟩], [0, 1, 2], 1⟩ : PathEnumerator Nat).stack.length ∧
      ((⟨[⟨2, ⟨[], none, []⟩, []⟩, ⟨0, ⟨[0], some 1, [2]⟩, []⟩,
        ⟨1, ⟨[], none, []⟩, []⟩], [0, 1, 2], 1⟩ :
          PathEnumerator Nat).stack.reverse[1]?).isSome = true :=
  claim_C9_report_depth graphA 0 30 0
    ⟨[⟨2, ⟨[], none, []⟩, []⟩, ⟨0, ⟨[0], some 1, [2]⟩, []⟩,
      ⟨1, ⟨[], none, []⟩, []⟩], [0, 1, 2], 1⟩ ([0, 1, 2], 1) (by decide) (by decide)

/-- Witness for C10: an `advance` on an exhausted enumerator returns
`false`, and indeed no trace is available afterwards. -/
theorem claim_C10_witness :
    ((false = true) ↔
        (symbols_and_cursor (⟨[], [], 0⟩ : PathEnumerator Nat)).isSome = true) ∧
      ((false = false) ↔ symbols_and_cursor (⟨[], [], 0⟩ : PathEnumerator Nat) = none) :=
  claim_C10_advance_iff_active graphSolo 5 ⟨[], [], 0⟩ false ⟨[], [], 0⟩ (by decide)

end TraceGraphModel
